import Mathlib

/-!
Verification of the consistent-hash ring load balancer core
(`source/common/upstream/ring_hash_lb.cc`): the ring builder
(`RingHashLoadBalancer::Ring::Ring`) and the lookup
(`RingHashLoadBalancer::Ring::chooseHost`), including the optional
shard acceleration index.

Modelling conventions:
* 64-bit unsigned integers are `Nat` (with explicit `% 2 ^ 64` / bound
  hypotheses where width matters); the signed `int64_t` search indices
  `lowp`/`midp`/`highp` are `Int`, and C++ signed division (which
  truncates toward zero) is `Int.tdiv`.
* `double` weight arithmetic is modelled exactly over `ℚ`.
* A host is an opaque `Nat` identifier.
* The hash of the key `key(host) ‖ "_" ‖ decimal(i)` is an opaque
  function parameter `H : Nat → Nat → Nat` (host, per-host index `i`):
  `hashKey`, `xxHash64` and `MurmurHash2` live outside this translation
  unit and the spec leaves them unspecified.
* The stats sink is modelled by the builder returning the three gauge
  values it sets (`none` when it returns before setting them).
-/

namespace RingHash

/-- One virtual node: `RingEntry { hash_, host_ }`. -/
structure RingEntry where
  hash : Nat
  host : Nat
deriving DecidableEq, Repr

/-- Default entry used to totalize list indexing (out-of-range reads are
undefined behaviour in the C++ source and unreachable in the claims). -/
def defaultEntry : RingEntry := ⟨0, 0⟩

/-- The built ring: sorted `ring_`, the shard start indices `ring_shard_`,
the final `rshift_to_shard` member, and the three gauge values emitted to
the stats sink (`size`, `min_hashes_per_host`, `max_hashes_per_host`),
`none` when the builder returned before emitting. -/
structure BuildResult where
  entries : List RingEntry
  shard : List Nat
  rshift : Nat
  stats : Option (Nat × Nat × Nat)
deriving DecidableEq, Repr

/-- Modelled from the spec: the initial value of the `rshift_to_shard`
member, set in the header (`ring_hash_lb.h`, not part of this translation
unit); the spec fixes the tunable at 9. -/
def rshiftInitial : Nat := 9

/-- The scale: `min(ceil(min_normalized_weight * min_ring_size) / min_normalized_weight,
max_ring_size)` (builder, lines 176-178). -/
def scaleOf (minW : ℚ) (minRing maxRing : Nat) : ℚ :=
  min ((⌈minW * (minRing : ℚ)⌉ : ℚ) / minW) (maxRing : ℚ)

/-- The ring size: `std::ceil(scale)` (line 181). -/
def ringSizeOf (scale : ℚ) : Nat := ⌈scale⌉.toNat

/-- The inner `while (current_hashes < target_hashes)` loop for one host
(lines 220-237): starting at per-host index `i` with running sum
`current`, push `(H host i, host)` and increment both until
`current < target` fails.  `current_hashes` is a `double` in the source
but is only ever incremented by 1 from an integral start, so it is a
`Nat` here. -/
def placeHost (H : Nat → Nat → Nat) (host : Nat) (i current : Nat) (target : ℚ) :
    List RingEntry :=
  if (current : ℚ) < target then
    ⟨H host i, host⟩ :: placeHost H host (i + 1) (current + 1) target
  else
    []
termination_by (⌈target⌉ - current).toNat
decreasing_by
  have h1 : (current : ℤ) < ⌈target⌉ := by
    rw [Int.lt_ceil]; exact_mod_cast (by assumption)
  omega

/-- The outer loop over `normalized_host_weights` (lines 207-240):
returns the unsorted ring, the per-host virtual-node counts (the final
value of `i` for each host), and the final `current_hashes`. -/
def buildLoop (H : Nat → Nat → Nat) (scale : ℚ) (hosts : List (Nat × ℚ))
    (current : Nat) (target : ℚ) : List RingEntry × List Nat × Nat :=
  match hosts with
  | [] => ([], [], current)
  | (host, w) :: rest =>
      let target' := target + scale * w
      let es := placeHost H host 0 current target'
      let r := buildLoop H scale rest (current + es.length) target'
      (es ++ r.1, es.length :: r.2.1, r.2.2)

/-- The sort step: `std::sort` by `lhs.hash_ < rhs.hash_` (lines 242-244); modelled by a
stable merge sort on the equivalent non-strict comparison (the spec makes
tie-breaking unobservable). -/
def sortRing (l : List RingEntry) : List RingEntry :=
  l.mergeSort fun a b => decide (a.hash ≤ b.hash)

/-- The hashes of the ring entries, in ring order. -/
def entryHashes (es : List RingEntry) : List Nat := es.map RingEntry.hash

/-- The MSB loop (lines 256-262): `n = h/2; msb = 0; while n != 0 { n /= 2; msb++ }`
counts the halvings of `n` until zero; `msbOf h = msbLoop (h / 2)`. -/
def msbLoop (n : Nat) : Nat :=
  if n = 0 then 0 else msbLoop (n / 2) + 1
termination_by n
decreasing_by exact Nat.div_lt_self (Nat.pos_of_ne_zero (by assumption)) (by omega)

/-- The final `rshift_to_shard` (line 265):
`min(rshift_initial + msb(entries[0].hash), 64)` where `msb` is computed
by the halving loop on `entries[0].hash_`. -/
def rshiftOf (entries : List RingEntry) (rshift0 : Nat) : Nat :=
  if rshift0 + msbLoop ((entries.headD defaultEntry).hash / 2) > 64 then 64
  else rshift0 + msbLoop ((entries.headD defaultEntry).hash / 2)

/-- The shard value of a hash: `(hash >> (rshift_to_shard - 1)) >> 1`
(builder line 283). -/
def shiftVal (rshift hash : Nat) : Nat := (hash >>> (rshift - 1)) >>> 1

/-- The `for (entry : ring_)` shard-boundary loop (lines 281-291).  At the
loop head `ringIndex` is the running `ring_index` counter and `prevShard`
the running `prev_shard`; a boundary equal to the *current* value of
`ring_index` is pushed whenever the shard value changes. -/
def mkShardLoop (rshift : Nat) (es : List RingEntry) (ringIndex prevShard : Nat) :
    List Nat :=
  match es with
  | [] => []
  | e :: rest =>
      if shiftVal rshift e.hash ≠ prevShard then
        ringIndex :: mkShardLoop rshift rest (ringIndex + 1) (shiftVal rshift e.hash)
      else
        mkShardLoop rshift rest (ringIndex + 1) prevShard

/-- The shard table `ring_shard_` as built by lines 272-293: the initial `0` is pushed
(and `ring_index` incremented to 1) when the ring is non-empty, then the
boundary loop runs, then `ring_size` is pushed as the closing sentinel. -/
def mkShard (rshift : Nat) (entries : List RingEntry) (ringSize : Nat) : List Nat :=
  (if entries.isEmpty then [] else [0]) ++ mkShardLoop rshift entries 1 0 ++ [ringSize]

/-- The builder `RingHashLoadBalancer::Ring::Ring` (lines 159-301): empty input gives
an empty ring and no stats; otherwise scale, generate, sort, optionally
shard, and emit the three gauges.  `sharded` is the
`envoy.reloadable_features.shard_ringhash` runtime flag. -/
def buildRing (H : Nat → Nat → Nat) (hosts : List (Nat × ℚ)) (minW : ℚ)
    (minRing maxRing : Nat) (sharded : Bool) (rshift0 : Nat) : BuildResult :=
  if hosts.isEmpty then ⟨[], [], rshift0, none⟩
  else
    let scale := scaleOf minW minRing maxRing
    let ringSize := ringSizeOf scale
    let bl := buildLoop H scale hosts 0 0
    let entries := sortRing bl.1
    let counts := bl.2.1
    let minHashes := counts.foldl (fun m c => min c m) ringSize
    let maxHashes := counts.foldl (fun m c => max c m) 0
    let rshift := if sharded then rshiftOf entries rshift0 else rshift0
    let shard := if sharded then mkShard rshift entries ringSize else []
    ⟨entries, shard, rshift, some (ringSize, minHashes, maxHashes)⟩

/-- The ketama binary-search loop of `chooseHost` (lines 120-146), on the
list of ring hashes.  `lowp`, `midp`, `highp` are signed (`Int`), `midp`
is computed with C++ truncating division, and the loop returns the final
`midp` (0 on wrap or exhaustion). -/
def bsearchGo (hs : List Nat) (h : Nat) (lo hi : Int) : Nat :=
  let mid := (lo + hi).tdiv 2
  if mid = (hs.length : Int) then 0
  else
    let midval := hs.getD mid.toNat 0
    let midval1 := if mid = 0 then 0 else hs.getD (mid - 1).toNat 0
    if h ≤ midval ∧ midval1 < h then mid.toNat
    else if midval < h then
      if mid + 1 > hi then 0 else bsearchGo hs h (mid + 1) hi
    else
      if lo > mid - 1 then 0 else bsearchGo hs h lo (mid - 1)
termination_by (hi + 1 - lo).toNat
decreasing_by
  all_goals
    have h1 : min lo hi ≤ (lo + hi).tdiv 2 := by
      rcases le_or_lt 0 (lo + hi) with hab | hab
      · rw [Int.tdiv_eq_ediv hab (by norm_num)]; omega
      · rw [show (lo + hi).tdiv 2 = -((-(lo + hi)).tdiv 2) by rw [Int.neg_tdiv]; ring,
          Int.tdiv_eq_ediv (by omega) (by norm_num)]
        omega
  all_goals
    have h2 : (lo + hi).tdiv 2 ≤ max lo hi := by
      rcases le_or_lt 0 (lo + hi) with hab | hab
      · rw [Int.tdiv_eq_ediv hab (by norm_num)]; omega
      · rw [show (lo + hi).tdiv 2 = -((-(lo + hi)).tdiv 2) by rw [Int.neg_tdiv]; ring,
          Int.tdiv_eq_ediv (by omega) (by norm_num)]
        omega
  all_goals simp only [not_lt] at *
  all_goals omega

/-- The shard index computed by `chooseHost` (lines 99-108):
`(h >> (rshift_to_shard - 1)) >> 1`, with the special branch taken when
bit 63 of `h` is set:
`(((h & 0x7FFFFFFFFFFFFFFF) >> 1) | 0x4000000000000000) >> (rshift_to_shard - 1)`. -/
def shardIndexOf (rshift h : Nat) : Nat :=
  if h &&& 0x8000000000000000 ≠ 0 then
    (((h &&& 0x7FFFFFFFFFFFFFFF) >>> 1) ||| 0x4000000000000000) >>> (rshift - 1)
  else
    (h >>> (rshift - 1)) >>> 1

/-- The index selected by `chooseHost` before the retry offset: the shard
window (sharded) or the whole ring (unsharded) fed to the binary search.
`none` models the empty-ring early return and an out-of-bounds
`ring_shard_` access (lines 84-118). -/
def lookupIndex (r : BuildResult) (sharded : Bool) (h : Nat) : Option Nat :=
  if r.entries.isEmpty then none
  else if sharded then
    match r.shard[shardIndexOf r.rshift h]?, r.shard[shardIndexOf r.rshift h + 1]? with
    | some lowp, some highp =>
        some (bsearchGo (entryHashes r.entries) h (lowp : Int) (highp : Int))
    | _, _ => none
  else
    some (bsearchGo (entryHashes r.entries) h 0 (r.entries.length : Int))

/-- The lookup `RingHashLoadBalancer::Ring::chooseHost` (lines 84-156): find `midp`,
apply the retry offset `midp = (midp + attempt) % ring_.size()` when
`attempt > 0`, and return that entry's host. -/
def chooseHost (r : BuildResult) (sharded : Bool) (h : Nat) (attempt : Nat) :
    Option Nat :=
  (lookupIndex r sharded h).map fun midp =>
    (r.entries.getD (if 0 < attempt then (midp + attempt) % r.entries.length else midp)
        defaultEntry).host

/-- Follows the spec's words (§4.2 Contract): the unique `p` with
`entries[p-1].hash < h ≤ entries[p].hash` (treating `entries[-1].hash` as 0),
i.e. the smallest index whose hash is `≥ h`, wrapping `p = len` to `p = 0`. -/
def specIdxHashes (hs : List Nat) (h : Nat) : Nat :=
  if hs.findIdx (fun a => decide (h ≤ a)) = hs.length then 0
  else hs.findIdx (fun a => decide (h ≤ a))

/-- The spec index `specIdxHashes` on the entries of a ring. -/
def specIndex (es : List RingEntry) (h : Nat) : Nat := specIdxHashes (entryHashes es) h

/-- Two equally weighted hosts, the canonical concrete build input. -/
def hostsTwo : List (Nat × ℚ) := [(0, 1 / 2), (1, 1 / 2)]

/-- Concrete hash function: host 0 hashes to `2^20`, host 1 to `2^29`. -/
def hashesNear : Nat → Nat → Nat := fun host _ => if host = 0 then 2 ^ 20 else 2 ^ 29

/-- Concrete hash function: host 0 hashes to `2^20`, host 1 to `2^49`. -/
def hashesFar : Nat → Nat → Nat := fun host _ => if host = 0 then 2 ^ 20 else 2 ^ 49

/-- Two-host ring (hashes `2^20`, `2^29`) built with sharding enabled. -/
def ringNear : BuildResult := buildRing hashesNear hostsTwo (1 / 2) 2 2 true 9

/-- Two-host ring (hashes `2^20`, `2^49`) built with sharding enabled. -/
def ringFar : BuildResult := buildRing hashesFar hostsTwo (1 / 2) 2 2 true 9

/-- The four-entry ring of spec §8 scenario 5 (hashes 10, 20, 30, 40). -/
def ringRetry : BuildResult := ⟨[⟨10, 0⟩, ⟨20, 1⟩, ⟨30, 2⟩, ⟨40, 3⟩], [], 9, none⟩

/-! ### Closed forms for the generation loops -/

/-- Truncating division by two of `lo + hi` is bounded below by `min lo hi`. -/
theorem tdiv2_min (a b : Int) : min a b ≤ (a + b).tdiv 2 := by
  rcases le_or_lt 0 (a + b) with hab | hab
  · rw [Int.tdiv_eq_ediv hab (by norm_num)]
    omega
  · rw [show (a + b).tdiv 2 = -((-(a + b)).tdiv 2) by rw [Int.neg_tdiv]; ring,
      Int.tdiv_eq_ediv (by omega) (by norm_num)]
    omega

/-- Truncating division by two of `lo + hi` is bounded above by `max lo hi`. -/
theorem tdiv2_max (a b : Int) : (a + b).tdiv 2 ≤ max a b := by
  rcases le_or_lt 0 (a + b) with hab | hab
  · rw [Int.tdiv_eq_ediv hab (by norm_num)]
    omega
  · rw [show (a + b).tdiv 2 = -((-(a + b)).tdiv 2) by rw [Int.neg_tdiv]; ring,
      Int.tdiv_eq_ediv (by omega) (by norm_num)]
    omega

/-- Closed form of the inner while loop: it places
`(⌈target⌉ - current)⁺` entries, with consecutive per-host indices. -/
theorem placeHost_eq (H : Nat → Nat → Nat) (host : Nat) (i current : Nat) (target : ℚ) :
    placeHost H host i current target =
      (List.range (⌈target⌉ - current).toNat).map fun j => ⟨H host (i + j), host⟩ := by
  rw [placeHost.eq_def]
  by_cases hc : (current : ℚ) < target
  · have h1 : (current : ℤ) < ⌈target⌉ := by
      rw [Int.lt_ceil]; exact_mod_cast hc
    rw [if_pos hc, placeHost_eq H host (i + 1) (current + 1) target]
    have h2 : (⌈target⌉ - current).toNat = (⌈target⌉ - (current + 1)).toNat + 1 := by omega
    rw [h2, List.range_succ_eq_map, List.map_cons, List.map_map]
    have h3 : ∀ j : Nat, i + 1 + j = i + (j + 1) := by omega
    simp [Function.comp_def, h3]
  · have h1 : ⌈target⌉ ≤ (current : ℤ) := by
      rw [Int.ceil_le]; exact_mod_cast not_lt.mp hc
    rw [if_neg hc]
    have h2 : (⌈target⌉ - current).toNat = 0 := by omega
    rw [h2]
    simp
termination_by (⌈target⌉ - current).toNat
decreasing_by
  have h2 : (current : ℤ) < ⌈target⌉ := by
    rw [Int.lt_ceil]; exact_mod_cast hc
  omega

/-- Length of the per-host block. -/
theorem placeHost_length (H : Nat → Nat → Nat) (host : Nat) (i current : Nat) (target : ℚ) :
    (placeHost H host i current target).length = (⌈target⌉ - current).toNat := by
  rw [placeHost_eq]; simp

/-- The final `current_hashes` equals the initial one plus all per-host counts. -/
theorem buildLoop_final_eq_sum (H : Nat → Nat → Nat) (scale : ℚ) :
    ∀ (hosts : List (Nat × ℚ)) (current : Nat) (target : ℚ),
      (buildLoop H scale hosts current target).2.2 =
        current + (buildLoop H scale hosts current target).2.1.sum := by
  intro hosts
  induction hosts with
  | nil => intro current target; simp [buildLoop]
  | cons p rest ih =>
      intro current target
      obtain ⟨host, w⟩ := p
      simp only [buildLoop, List.sum_cons]
      rw [ih]
      omega

/-- There is one count per input host. -/
theorem buildLoop_counts_length (H : Nat → Nat → Nat) (scale : ℚ) :
    ∀ (hosts : List (Nat × ℚ)) (current : Nat) (target : ℚ),
      (buildLoop H scale hosts current target).2.1.length = hosts.length := by
  intro hosts
  induction hosts with
  | nil => intro current target; simp [buildLoop]
  | cons p rest ih =>
      intro current target
      obtain ⟨host, w⟩ := p
      simp only [buildLoop, List.length_cons]
      rw [ih]

/-- The generated ring has one entry per counted hash. -/
theorem buildLoop_entries_length (H : Nat → Nat → Nat) (scale : ℚ) :
    ∀ (hosts : List (Nat × ℚ)) (current : Nat) (target : ℚ),
      (buildLoop H scale hosts current target).1.length =
        (buildLoop H scale hosts current target).2.1.sum := by
  intro hosts
  induction hosts with
  | nil => intro current target; simp [buildLoop]
  | cons p rest ih =>
      intro current target
      obtain ⟨host, w⟩ := p
      simp only [buildLoop, List.length_append, List.sum_cons]
      rw [ih]

/-- Every generated entry is a hash value of its host. -/
theorem buildLoop_mem (H : Nat → Nat → Nat) (scale : ℚ) :
    ∀ (hosts : List (Nat × ℚ)) (current : Nat) (target : ℚ),
      ∀ e ∈ (buildLoop H scale hosts current target).1, ∃ a b, e = ⟨H a b, a⟩ := by
  intro hosts
  induction hosts with
  | nil => intro current target e he; simp [buildLoop] at he
  | cons p rest ih =>
      intro current target e he
      obtain ⟨host, w⟩ := p
      simp only [buildLoop, List.mem_append] at he
      rcases he with he | he
      · rw [placeHost_eq] at he
        simp only [List.mem_map, List.mem_range] at he
        obtain ⟨j, _, rfl⟩ := he
        exact ⟨host, 0 + j, rfl⟩
      · exact ih _ _ e he

/-! ### The running-sum discipline -/

/-- Running-sum invariant: if `current = ⌈target⌉` on entry, the final
`current_hashes` is the ceiling of the total target
`target + scale * Σ weights`. -/
theorem buildLoop_final_ceil (H : Nat → Nat → Nat) (scale : ℚ) (hs0 : 0 ≤ scale) :
    ∀ (hosts : List (Nat × ℚ)) (current : Nat) (target : ℚ),
      0 ≤ target → (current : ℤ) = ⌈target⌉ → (∀ p ∈ hosts, 0 ≤ p.2) →
      ((buildLoop H scale hosts current target).2.2 : ℤ) =
        ⌈target + scale * (hosts.map Prod.snd).sum⌉ := by
  intro hosts
  induction hosts with
  | nil =>
      intro current target ht hcur hw
      simpa [buildLoop] using hcur
  | cons p rest ih =>
      intro current target ht hcur hw
      obtain ⟨host, w⟩ := p
      have hw0 : 0 ≤ w := hw (host, w) (List.mem_cons_self _ _)
      have hsw : 0 ≤ scale * w := mul_nonneg hs0 hw0
      have hmono : ⌈target⌉ ≤ ⌈target + scale * w⌉ :=
        Int.ceil_le_ceil (by linarith)
      have hlen : (placeHost H host 0 current (target + scale * w)).length =
          (⌈target + scale * w⌉ - current).toNat := placeHost_length _ _ _ _ _
      have hcur' : ((current + (placeHost H host 0 current (target + scale * w)).length : Nat) : ℤ) =
          ⌈target + scale * w⌉ := by
        rw [hlen]; push_cast; omega
      have := ih (current + (placeHost H host 0 current (target + scale * w)).length)
        (target + scale * w) (by linarith) hcur'
        (fun q hq => hw q (List.mem_cons_of_mem _ hq))
      simp only [buildLoop, List.map_cons, List.sum_cons]
      rw [this]
      congr 1
      ring

/-- Per-host count fidelity: under the running-sum invariant, each
per-host count is `⌊scale * w⌋` or `⌈scale * w⌉`. -/
theorem buildLoop_count_floor_ceil (H : Nat → Nat → Nat) (scale : ℚ) (hs0 : 0 ≤ scale) :
    ∀ (hosts : List (Nat × ℚ)) (current : Nat) (target : ℚ),
      0 ≤ target → (current : ℤ) = ⌈target⌉ → (∀ p ∈ hosts, 0 ≤ p.2) →
      ∀ k, k < hosts.length →
        (((buildLoop H scale hosts current target).2.1.getD k 0 : ℤ) =
            ⌊scale * (hosts.getD k (0, 0)).2⌋ ∨
         ((buildLoop H scale hosts current target).2.1.getD k 0 : ℤ) =
            ⌈scale * (hosts.getD k (0, 0)).2⌉) := by
  intro hosts
  induction hosts with
  | nil => intro current target _ _ _ k hk; simp at hk
  | cons p rest ih =>
      intro current target ht hcur hw k hk
      obtain ⟨host, w⟩ := p
      have hw0 : 0 ≤ w := hw (host, w) (List.mem_cons_self _ _)
      have hsw : 0 ≤ scale * w := mul_nonneg hs0 hw0
      have hmono : ⌈target⌉ ≤ ⌈target + scale * w⌉ :=
        Int.ceil_le_ceil (by linarith)
      have hlen : (placeHost H host 0 current (target + scale * w)).length =
          (⌈target + scale * w⌉ - current).toNat := placeHost_length _ _ _ _ _
      match k with
      | 0 =>
          simp only [buildLoop, List.getD_cons_zero]
          rw [hlen]
          have hup : ⌈target + scale * w⌉ ≤ ⌈target⌉ + ⌈scale * w⌉ := Int.ceil_add_le _ _
          have hlow : ⌈target⌉ + ⌊scale * w⌋ ≤ ⌈target + scale * w⌉ := by
            rw [← Int.ceil_add_int]
            exact Int.ceil_le_ceil (by
              have := Int.floor_le (scale * w)
              linarith)
          have hfc : ⌈scale * w⌉ ≤ ⌊scale * w⌋ + 1 := Int.ceil_le_floor_add_one _
          have hfc2 : ⌊scale * w⌋ ≤ ⌈scale * w⌉ := Int.floor_le_ceil _
          omega
      | k + 1 =>
          simp only [buildLoop, List.getD_cons_succ]
          have hcur' : ((current + (placeHost H host 0 current (target + scale * w)).length : Nat) : ℤ) =
              ⌈target + scale * w⌉ := by
            rw [hlen]; push_cast; omega
          exact ih _ _ (by linarith) hcur'
            (fun q hq => hw q (List.mem_cons_of_mem _ hq)) k
            (by simpa using Nat.lt_of_succ_lt_succ hk)

/-! ### Scale bounds -/

theorem scaleOf_nonneg {minW : ℚ} (minRing maxRing : Nat) (h : 0 < minW) :
    0 ≤ scaleOf minW minRing maxRing := by
  apply le_min
  · apply div_nonneg _ h.le
    have : (0 : ℤ) ≤ ⌈minW * (minRing : ℚ)⌉ :=
      Int.ceil_nonneg (by positivity)
    exact_mod_cast this
  · positivity

theorem scaleOf_le_max (minW : ℚ) (minRing maxRing : Nat) :
    scaleOf minW minRing maxRing ≤ (maxRing : ℚ) := min_le_right _ _

theorem le_scaleOf {minW : ℚ} {minRing maxRing : Nat} (h : 0 < minW)
    (hmm : minRing ≤ maxRing) : (minRing : ℚ) ≤ scaleOf minW minRing maxRing := by
  apply le_min
  · rw [le_div_iff h]
    calc (minRing : ℚ) * minW = minW * minRing := by ring
    _ ≤ (⌈minW * (minRing : ℚ)⌉ : ℚ) := Int.le_ceil _
  · exact_mod_cast hmm

/-! ### The gauge folds -/

theorem foldl_min_spec : ∀ (l : List Nat) (init : Nat),
    l.foldl (fun m c => min c m) init ≤ init ∧
    (∀ c ∈ l, l.foldl (fun m c => min c m) init ≤ c) ∧
    (l.foldl (fun m c => min c m) init = init ∨
      l.foldl (fun m c => min c m) init ∈ l) := by
  intro l
  induction l with
  | nil => intro init; simp
  | cons c rest ih =>
      intro init
      obtain ⟨h1, h2, h3⟩ := ih (min c init)
      simp only [List.foldl_cons, List.mem_cons]
      refine ⟨by omega, ?_, ?_⟩
      · intro d hd
        rcases hd with rfl | hd
        · omega
        · exact h2 d hd
      · rcases h3 with h3 | h3
        · rcases le_total c init with hci | hci
          · right; left; omega
          · left; omega
        · right; right; exact h3

theorem foldl_max_spec : ∀ (l : List Nat) (init : Nat),
    init ≤ l.foldl (fun m c => max c m) init ∧
    (∀ c ∈ l, c ≤ l.foldl (fun m c => max c m) init) ∧
    (l.foldl (fun m c => max c m) init = init ∨
      l.foldl (fun m c => max c m) init ∈ l) := by
  intro l
  induction l with
  | nil => intro init; simp
  | cons c rest ih =>
      intro init
      obtain ⟨h1, h2, h3⟩ := ih (max c init)
      simp only [List.foldl_cons, List.mem_cons]
      refine ⟨by omega, ?_, ?_⟩
      · intro d hd
        rcases hd with rfl | hd
        · omega
        · exact h2 d hd
      · rcases h3 with h3 | h3
        · rcases le_total c init with hci | hci
          · left; omega
          · right; left; omega
        · right; right; exact h3

/-! ### Unfolding the builder -/

/-- Unfolding `buildRing` on a non-empty host vector, with the locals spelled out. -/
theorem buildRing_eq_of_ne (H : Nat → Nat → Nat) (hosts : List (Nat × ℚ)) (minW : ℚ)
    (minRing maxRing : Nat) (sharded : Bool) (rshift0 : Nat) (hne : hosts ≠ []) :
    buildRing H hosts minW minRing maxRing sharded rshift0 =
      { entries := sortRing (buildLoop H (scaleOf minW minRing maxRing) hosts 0 0).1
        shard :=
          if sharded then
            mkShard
              (rshiftOf (sortRing (buildLoop H (scaleOf minW minRing maxRing) hosts 0 0).1) rshift0)
              (sortRing (buildLoop H (scaleOf minW minRing maxRing) hosts 0 0).1)
              (ringSizeOf (scaleOf minW minRing maxRing))
          else []
        rshift :=
          if sharded then
            rshiftOf (sortRing (buildLoop H (scaleOf minW minRing maxRing) hosts 0 0).1) rshift0
          else rshift0
        stats :=
          some (ringSizeOf (scaleOf minW minRing maxRing),
            (buildLoop H (scaleOf minW minRing maxRing) hosts 0 0).2.1.foldl
              (fun m c => min c m) (ringSizeOf (scaleOf minW minRing maxRing)),
            (buildLoop H (scaleOf minW minRing maxRing) hosts 0 0).2.1.foldl
              (fun m c => max c m) 0) } := by
  have hempty : hosts.isEmpty = false := by
    cases hosts with
    | nil => exact absurd rfl hne
    | cons a l => rfl
  cases sharded <;> simp [buildRing, hempty]

/-- Unfolding `buildRing` with sharding enabled, on a non-empty host vector. -/
theorem buildRing_eq_of_ne_sharded (H : Nat → Nat → Nat) (hosts : List (Nat × ℚ))
    (minW : ℚ) (minRing maxRing : Nat) (rshift0 : Nat) (hne : hosts ≠ []) :
    buildRing H hosts minW minRing maxRing true rshift0 =
      { entries := sortRing (buildLoop H (scaleOf minW minRing maxRing) hosts 0 0).1
        shard :=
          mkShard
            (rshiftOf (sortRing (buildLoop H (scaleOf minW minRing maxRing) hosts 0 0).1) rshift0)
            (sortRing (buildLoop H (scaleOf minW minRing maxRing) hosts 0 0).1)
            (ringSizeOf (scaleOf minW minRing maxRing))
        rshift :=
          rshiftOf (sortRing (buildLoop H (scaleOf minW minRing maxRing) hosts 0 0).1) rshift0
        stats :=
          some (ringSizeOf (scaleOf minW minRing maxRing),
            (buildLoop H (scaleOf minW minRing maxRing) hosts 0 0).2.1.foldl
              (fun m c => min c m) (ringSizeOf (scaleOf minW minRing maxRing)),
            (buildLoop H (scaleOf minW minRing maxRing) hosts 0 0).2.1.foldl
              (fun m c => max c m) 0) } := by
  rw [buildRing_eq_of_ne _ _ _ _ _ _ _ hne]
  simp

/-! ### Sortedness of the built ring -/

theorem sortRing_sorted (l : List RingEntry) :
    List.Sorted (· ≤ ·) (entryHashes (sortRing l)) := by
  have h := @List.sorted_mergeSort RingEntry (fun a b => decide (a.hash ≤ b.hash))
    (fun a b c hab hbc => by
      simp only [decide_eq_true_eq] at *
      omega)
    (fun a b => by
      simp only [Bool.or_eq_true, decide_eq_true_eq]
      omega) l
  show List.Pairwise _ _
  rw [entryHashes, List.pairwise_map]
  exact h.imp (by intro a b hab; simpa using hab)

theorem sortRing_perm (l : List RingEntry) : (sortRing l).Perm l :=
  List.mergeSort_perm l _

theorem sortRing_length (l : List RingEntry) : (sortRing l).length = l.length :=
  List.length_mergeSort l

/-- In a sorted hash list, values are monotone in the index. -/
theorem sorted_getD_mono {hs : List Nat} (hsort : List.Sorted (· ≤ ·) hs) {j k : Nat}
    (hjk : j ≤ k) (hk : k < hs.length) : hs.getD j 0 ≤ hs.getD k 0 := by
  rcases Nat.eq_or_lt_of_le hjk with rfl | hlt
  · exact le_refl _
  · have hj : j < hs.length := lt_trans hlt hk
    rw [List.getD_eq_getElem _ _ hj, List.getD_eq_getElem _ _ hk]
    have := List.Sorted.rel_get_of_lt hsort
      (show (⟨j, hj⟩ : Fin hs.length) < ⟨k, hk⟩ from hlt)
    simpa using this

/-! ### The spec index -/

theorem findIdx_eq_of_first {p : Nat → Bool} {hs : List Nat} {i : Nat} (hi : i < hs.length)
    (hpi : p (hs.getD i 0) = true) (hlow : ∀ j, j < i → p (hs.getD j 0) = false) :
    hs.findIdx p = i := by
  rw [List.getD_eq_getElem _ _ hi] at hpi
  have hle : hs.findIdx p ≤ i := by
    by_contra hgt
    push_neg at hgt
    have := List.not_of_lt_findIdx hgt
    rw [this] at hpi
    exact Bool.false_ne_true hpi
  have hge : ¬ hs.findIdx p < i := by
    intro hlt
    have hfl : hs.findIdx p < hs.length := lt_trans hlt hi
    have h1 := @List.findIdx_get _ p hs hfl
    have h2 := hlow _ hlt
    rw [List.getD_eq_getElem _ _ hfl] at h2
    rw [List.get_eq_getElem] at h1
    rw [h2] at h1
    exact Bool.false_ne_true h1
  omega

/-- When every hash is below `h`, the spec index wraps to 0. -/
theorem specIdxHashes_of_all_lt {hs : List Nat} {h : Nat}
    (hall : ∀ j, j < hs.length → hs.getD j 0 < h) : specIdxHashes hs h = 0 := by
  have hlen : hs.findIdx (fun a => decide (h ≤ a)) = hs.length := by
    rw [List.findIdx_eq_length]
    intro x hx
    obtain ⟨j, hj, rfl⟩ := List.mem_iff_getElem.mp hx
    have := hall j hj
    rw [List.getD_eq_getElem _ _ hj] at this
    simpa using not_le.mpr this
  simp [specIdxHashes, hlen]

/-- The first index at which `h ≤ hash` is the spec index. -/
theorem specIdxHashes_of_first {hs : List Nat} {h i : Nat} (hi : i < hs.length)
    (hhit : h ≤ hs.getD i 0) (hlow : ∀ j, j < i → hs.getD j 0 < h) :
    specIdxHashes hs h = i := by
  have hfi : hs.findIdx (fun a => decide (h ≤ a)) = i :=
    findIdx_eq_of_first hi (by simpa using hhit)
      (fun j hj => by simpa using not_le.mpr (hlow j hj))
  rw [specIdxHashes, hfi, if_neg (by omega)]

/-! ### Correctness of the binary search on a valid window -/

/-- The ketama binary search returns the spec index whenever its window
`[lo, hi]` is valid for `h`: everything strictly left of `lo` hashes below
`h`, and (unless `hi` is the full length) `h ≤ hash[hi]`. -/
theorem bsearchGo_correct (hs : List Nat) (h : Nat) (hsort : List.Sorted (· ≤ ·) hs)
    (lo hi : Int) (hlo : 0 ≤ lo) (hlohi : lo ≤ hi) (hhi : hi ≤ (hs.length : Int))
    (hbelow : ∀ j : Nat, (j : Int) < lo → hs.getD j 0 < h)
    (habove : hi < (hs.length : Int) → h ≤ hs.getD hi.toNat 0) :
    bsearchGo hs h lo hi = specIdxHashes hs h := by
  have hdiv : (lo + hi).tdiv 2 = (lo + hi) / 2 :=
    Int.tdiv_eq_ediv (by omega) (by norm_num)
  rw [bsearchGo.eq_def]
  dsimp only
  by_cases hmid : (lo + hi).tdiv 2 = (hs.length : Int)
  · rw [if_pos hmid]
    have hloe : lo = (hs.length : Int) := by omega
    exact (specIdxHashes_of_all_lt (fun j hj => hbelow j (by omega))).symm
  · rw [if_neg hmid]
    have hmlen : (lo + hi).tdiv 2 < (hs.length : Int) := by omega
    have hm0 : 0 ≤ (lo + hi).tdiv 2 := by omega
    have hmtn : (((lo + hi).tdiv 2).toNat : Int) = (lo + hi).tdiv 2 := by omega
    have hmtlen : ((lo + hi).tdiv 2).toNat < hs.length := by omega
    by_cases hfound : h ≤ hs.getD ((lo + hi).tdiv 2).toNat 0 ∧
        (if (lo + hi).tdiv 2 = 0 then 0 else hs.getD ((lo + hi).tdiv 2 - 1).toNat 0) < h
    · rw [if_pos hfound]
      obtain ⟨hf1, hf2⟩ := hfound
      by_cases hm00 : (lo + hi).tdiv 2 = 0
      · rw [hm00]
        rw [hm00] at hf1
        exact (specIdxHashes_of_first (by omega) hf1 (fun j hj => by omega)).symm
      · rw [if_neg hm00] at hf2
        refine (specIdxHashes_of_first hmtlen hf1 ?_).symm
        intro j hj
        have hjle : j ≤ ((lo + hi).tdiv 2 - 1).toNat := by omega
        have hblt : ((lo + hi).tdiv 2 - 1).toNat < hs.length := by omega
        exact lt_of_le_of_lt (sorted_getD_mono hsort hjle hblt) hf2
    · rw [if_neg hfound]
      by_cases hcmp : hs.getD ((lo + hi).tdiv 2).toNat 0 < h
      · rw [if_pos hcmp]
        by_cases hstop : (lo + hi).tdiv 2 + 1 > hi
        · exfalso
          have hmhi : (lo + hi).tdiv 2 = hi := by omega
          have := habove (by omega)
          rw [← hmhi] at this
          omega
        · rw [if_neg hstop]
          refine bsearchGo_correct hs h hsort ((lo + hi).tdiv 2 + 1) hi (by omega)
            (by omega) hhi ?_ habove
          intro j hj
          have hjle : j ≤ ((lo + hi).tdiv 2).toNat := by omega
          exact lt_of_le_of_lt (sorted_getD_mono hsort hjle hmtlen) hcmp
      · rw [if_neg hcmp]
        have hprev : ¬ ((if (lo + hi).tdiv 2 = 0 then 0
            else hs.getD ((lo + hi).tdiv 2 - 1).toNat 0) < h) :=
          fun hp => hfound ⟨not_lt.mp hcmp, hp⟩
        by_cases hm00 : (lo + hi).tdiv 2 = 0
        · rw [if_pos hm00] at hprev
          have h0 : h = 0 := by omega
          rw [if_pos (show lo > (lo + hi).tdiv 2 - 1 by omega)]
          exact (specIdxHashes_of_first (by omega) (by omega) (fun j hj => by omega)).symm
        · rw [if_neg hm00] at hprev
          have hprev' : h ≤ hs.getD ((lo + hi).tdiv 2 - 1).toNat 0 := by omega
          by_cases hstop : lo > (lo + hi).tdiv 2 - 1
          · exfalso
            have hj := hbelow ((lo + hi).tdiv 2 - 1).toNat (by omega)
            omega
          · rw [if_neg hstop]
            refine bsearchGo_correct hs h hsort lo ((lo + hi).tdiv 2 - 1) hlo
              (by omega) (by omega) hbelow ?_
            intro _
            exact hprev'
termination_by (hi + 1 - lo).toNat
decreasing_by
  · omega
  · omega

/-! ### Ring access bridges -/

theorem entryHashes_length (es : List RingEntry) : (entryHashes es).length = es.length :=
  List.length_map _ _

theorem entryHashes_getD (es : List RingEntry) (j : Nat) (hj : j < es.length) :
    (entryHashes es).getD j 0 = (es.getD j defaultEntry).hash := by
  rw [List.getD_eq_getElem _ _ (by simpa [entryHashes_length] using hj),
    List.getD_eq_getElem _ _ hj]
  simp [entryHashes]

theorem buildRing_entries_sorted (H : Nat → Nat → Nat) (hosts : List (Nat × ℚ)) (minW : ℚ)
    (minRing maxRing : Nat) (sharded : Bool) (rshift0 : Nat) :
    List.Sorted (· ≤ ·)
      (entryHashes (buildRing H hosts minW minRing maxRing sharded rshift0).entries) := by
  by_cases hne : hosts = []
  · subst hne
    simp [buildRing, entryHashes]
  · rw [buildRing_eq_of_ne _ _ _ _ _ _ _ hne]
    exact sortRing_sorted _

/-- Unfolding `chooseHost` with sharding disabled and `attempt = 0`, down to the
binary search over the whole ring. -/
theorem chooseHost_unsharded_eq (r : BuildResult) (h : Nat) (hne : r.entries ≠ []) :
    chooseHost r false h 0 =
      some ((r.entries.getD
        (bsearchGo (entryHashes r.entries) h 0 (r.entries.length : Int)) defaultEntry).host) := by
  rw [chooseHost, lookupIndex, if_neg (by simpa [List.isEmpty_iff] using hne)]
  simp

/-- The whole-ring window is always valid, so the unsharded search returns
the spec index. -/
theorem bsearch_full_eq_spec (es : List RingEntry) (h : Nat)
    (hsort : List.Sorted (· ≤ ·) (entryHashes es)) :
    bsearchGo (entryHashes es) h 0 (es.length : Int) = specIndex es h := by
  rw [specIndex]
  exact bsearchGo_correct (entryHashes es) h hsort 0 (es.length : Int) (le_refl 0)
    (by positivity) (by rw [entryHashes_length])
    (fun j hj => absurd hj (by omega))
    (fun hlt => absurd hlt (by rw [entryHashes_length]; omega))

/-! ### Evaluating the concrete builds -/

theorem msbLoop_zero : msbLoop 0 = 0 := by
  rw [msbLoop.eq_def]
  norm_num

theorem msbLoop_two_pow (k : Nat) : msbLoop (2 ^ k) = k + 1 := by
  induction k with
  | zero =>
      rw [msbLoop.eq_def]
      norm_num [msbLoop_zero]
  | succ k ih =>
      rw [msbLoop.eq_def, if_neg (by positivity),
        show 2 ^ (k + 1) / 2 = 2 ^ k by rw [pow_succ]; omega, ih]

theorem scaleOf_half_two : scaleOf (1 / 2) 2 2 = 2 := by
  rw [scaleOf]
  norm_num

theorem buildLoop_two (H : Nat → Nat → Nat) :
    buildLoop H 2 hostsTwo 0 0 = ([⟨H 0 0, 0⟩, ⟨H 1 0, 1⟩], [1, 1], 2) := by
  rw [hostsTwo]
  simp only [buildLoop, placeHost_eq]
  norm_num
  rw [show List.range 1 = [0] from by decide]
  simp

/-- The two-host build, for any hash function and flag, in closed form. -/
theorem buildRing_two (H : Nat → Nat → Nat) (sharded : Bool) (rshift0 : Nat) :
    buildRing H hostsTwo (1 / 2) 2 2 sharded rshift0 =
      { entries := sortRing [⟨H 0 0, 0⟩, ⟨H 1 0, 1⟩]
        shard :=
          if sharded then
            mkShard (rshiftOf (sortRing [⟨H 0 0, 0⟩, ⟨H 1 0, 1⟩]) rshift0)
              (sortRing [⟨H 0 0, 0⟩, ⟨H 1 0, 1⟩]) 2
          else []
        rshift :=
          if sharded then rshiftOf (sortRing [⟨H 0 0, 0⟩, ⟨H 1 0, 1⟩]) rshift0 else rshift0
        stats := some (2, 1, 1) } := by
  rw [buildRing_eq_of_ne _ _ _ _ _ _ _ (by rw [hostsTwo]; simp), scaleOf_half_two, buildLoop_two]
  have hrs : ringSizeOf 2 = 2 := by
    rw [ringSizeOf]
    have hc : (⌈(2 : ℚ)⌉ : ℤ) = 2 := by norm_num
    rw [hc]
    decide
  rw [hrs]
  norm_num

theorem ringNear_eq :
    ringNear = ⟨[⟨2 ^ 20, 0⟩, ⟨2 ^ 29, 1⟩], [0, 2, 2], 29, some (2, 1, 1)⟩ := by
  rw [ringNear, buildRing_two]
  have h1 : hashesNear 0 0 = 2 ^ 20 := by rw [hashesNear]; norm_num
  have h2 : hashesNear 1 0 = 2 ^ 29 := by rw [hashesNear]; norm_num
  rw [h1, h2]
  have hsorted : sortRing [⟨2 ^ 20, 0⟩, ⟨2 ^ 29, 1⟩] = [⟨2 ^ 20, 0⟩, ⟨2 ^ 29, 1⟩] :=
    List.mergeSort_of_sorted (by norm_num)
  rw [hsorted]
  have hm19 : msbLoop 524288 = 20 := by
    rw [show (524288 : Nat) = 2 ^ 19 by norm_num]
    exact msbLoop_two_pow 19
  have hrshift : rshiftOf [⟨2 ^ 20, 0⟩, ⟨2 ^ 29, 1⟩] 9 = 29 := by
    rw [rshiftOf]
    norm_num [hm19]
  rw [hrshift]
  norm_num
  decide

theorem ringFar_eq :
    ringFar = ⟨[⟨2 ^ 20, 0⟩, ⟨2 ^ 49, 1⟩], [0, 2, 2], 29, some (2, 1, 1)⟩ := by
  rw [ringFar, buildRing_two]
  have h1 : hashesFar 0 0 = 2 ^ 20 := by rw [hashesFar]; norm_num
  have h2 : hashesFar 1 0 = 2 ^ 49 := by rw [hashesFar]; norm_num
  rw [h1, h2]
  have hsorted : sortRing [⟨2 ^ 20, 0⟩, ⟨2 ^ 49, 1⟩] = [⟨2 ^ 20, 0⟩, ⟨2 ^ 49, 1⟩] :=
    List.mergeSort_of_sorted (by norm_num)
  rw [hsorted]
  have hm19 : msbLoop 524288 = 20 := by
    rw [show (524288 : Nat) = 2 ^ 19 by norm_num]
    exact msbLoop_two_pow 19
  have hrshift : rshiftOf [⟨2 ^ 20, 0⟩, ⟨2 ^ 49, 1⟩] 9 = 29 := by
    rw [rshiftOf]
    norm_num [hm19]
  rw [hrshift]
  norm_num
  decide

/-! ### Claims about the lookup -/

/-- Claim C1: on every built ring with non-empty entries queried with
sharding disabled, `choose(h, 0)` returns the host of the entry at the
smallest index `p` with `h ≤ entries[p].hash`, and returns
`entries[0].host` both when `h` exceeds every entry's hash (wrap at the
top) and when `h = 0`. -/
theorem claim_C1 (H : Nat → Nat → Nat) (hosts : List (Nat × ℚ)) (minW : ℚ)
    (minRing maxRing : Nat) (sharded : Bool) (rshift0 : Nat) (h : Nat)
    (r : BuildResult) (hr : r = buildRing H hosts minW minRing maxRing sharded rshift0)
    (hne : r.entries ≠ []) :
    chooseHost r false h 0 =
        some ((r.entries.getD (specIndex r.entries h) defaultEntry).host) ∧
    (h = 0 →
      chooseHost r false h 0 = some ((r.entries.getD 0 defaultEntry).host)) ∧
    ((∀ e ∈ r.entries, e.hash < h) →
      chooseHost r false h 0 = some ((r.entries.getD 0 defaultEntry).host)) := by
  have hsort : List.Sorted (· ≤ ·) (entryHashes r.entries) := by
    rw [hr]; exact buildRing_entries_sorted H hosts minW minRing maxRing sharded rshift0
  have hmain : chooseHost r false h 0 =
      some ((r.entries.getD (specIndex r.entries h) defaultEntry).host) := by
    rw [chooseHost_unsharded_eq _ _ hne, bsearch_full_eq_spec _ _ hsort]
  have hlen : 0 < r.entries.length := List.length_pos.mpr hne
  refine ⟨hmain, ?_, ?_⟩
  · intro h0
    subst h0
    rw [hmain, show specIndex r.entries 0 = 0 from
      specIdxHashes_of_first (by rw [entryHashes_length]; exact hlen) (by omega)
        (fun j hj => absurd hj (by omega))]
  · intro hall
    rw [hmain, show specIndex r.entries h = 0 from specIdxHashes_of_all_lt ?_]
    intro j hj
    rw [entryHashes_length] at hj
    rw [entryHashes_getD _ _ hj]
    apply hall
    rw [List.getD_eq_getElem _ _ hj]
    exact List.getElem_mem _

/-- Witness for C1: the concrete two-host ring, queried at `h = 2^20`,
returns host 0 (the entry with hash `2^20`). -/
theorem claim_C1_witness :
    ringNear.entries ≠ [] ∧ chooseHost ringNear false (2 ^ 20) 0 = some 0 := by
  have hne : ringNear.entries ≠ [] := by rw [ringNear_eq]; simp
  refine ⟨hne, ?_⟩
  rw [(claim_C1 hashesNear hostsTwo (1 / 2) 2 2 true 9 (2 ^ 20) ringNear rfl hne).1,
    ringNear_eq]
  decide

/-- Claim C7: for every ring with non-empty entries and every `attempt > 0`,
`choose(h, attempt)` returns `entries[(p + attempt) mod entries.len()].host`
where `p` is the index `choose(h, 0)` selects; the offset wraps modulo the
ring size, and a different host from `choose(h, 0)` is not guaranteed. -/
theorem claim_C7 (r : BuildResult) (sharded : Bool) (h attempt p : Nat)
    (hp : lookupIndex r sharded h = some p) (ha : 0 < attempt) :
    chooseHost r sharded h 0 = some ((r.entries.getD p defaultEntry).host) ∧
    chooseHost r sharded h attempt =
      some ((r.entries.getD ((p + attempt) % r.entries.length) defaultEntry).host) ∧
    ∃ (q : BuildResult) (hq aq : Nat), 0 < aq ∧
      chooseHost q false hq aq = chooseHost q false hq 0 := by
  refine ⟨by rw [chooseHost, hp]; simp, by rw [chooseHost, hp]; simp [ha], ?_⟩
  refine ⟨ringRetry, 15, 4, by omega, ?_⟩
  have hsort : List.Sorted (· ≤ ·) (entryHashes ringRetry.entries) := by
    rw [ringRetry]
    decide
  have h1 : bsearchGo (entryHashes ringRetry.entries) 15 0 (ringRetry.entries.length : Int) = 1 := by
    rw [bsearch_full_eq_spec _ _ hsort, ringRetry]
    decide
  have hp1 : lookupIndex ringRetry false 15 = some 1 := by
    rw [lookupIndex, if_neg (by decide), if_neg (by decide), h1]
  rw [chooseHost, chooseHost, hp1, ringRetry]
  decide

/-- Witness for C7: spec §8 scenario 5, the ring with hashes 10/20/30/40:
`choose(15, 1)` gives `entries[2].host` and `choose(15, 4)` wraps back to
`entries[1].host`. -/
theorem claim_C7_witness :
    chooseHost ringRetry false 15 1 = some 2 ∧ chooseHost ringRetry false 15 4 = some 1 := by
  have hsort : List.Sorted (· ≤ ·) (entryHashes ringRetry.entries) := by
    rw [ringRetry]
    decide
  have hp : lookupIndex ringRetry false 15 = some 1 := by
    have h1 : bsearchGo (entryHashes ringRetry.entries) 15 0
        (ringRetry.entries.length : Int) = 1 := by
      rw [bsearch_full_eq_spec _ _ hsort, ringRetry]
      decide
    rw [lookupIndex, if_neg (by decide), if_neg (by decide), h1]
  constructor
  · rw [(claim_C7 ringRetry false 15 1 1 hp one_pos).2.1, ringRetry]
    decide
  · rw [(claim_C7 ringRetry false 15 4 1 hp (by omega)).2.1, ringRetry]
    decide

/-- Claim C9: building from an empty host vector yields empty entries and
no stats gauges, and `choose` on any ring with empty entries returns none
for every hash and attempt. -/
theorem claim_C9 (H : Nat → Nat → Nat) (minW : ℚ) (minRing maxRing : Nat)
    (sharded : Bool) (rshift0 : Nat) :
    (buildRing H [] minW minRing maxRing sharded rshift0).entries = [] ∧
    (buildRing H [] minW minRing maxRing sharded rshift0).stats = none ∧
    ∀ (r : BuildResult) (sh : Bool) (h attempt : Nat), r.entries = [] →
      chooseHost r sh h attempt = none := by
  refine ⟨by rw [buildRing]; rfl, by rw [buildRing]; rfl, ?_⟩
  intro r sh h attempt hre
  rw [chooseHost, lookupIndex, if_pos (by simp [hre])]
  rfl

/-- Witness for C9 at a concrete empty ring. -/
theorem claim_C9_witness : chooseHost ⟨[], [], 9, none⟩ true 5 3 = none :=
  (claim_C9 hashesNear 1 1 1 true 9).2.2 ⟨[], [], 9, none⟩ true 5 3 rfl

/-- Claim C10: for every 64-bit `h` and `rshift_to_shard ∈ [1, 64]`, the
shard index equals `(h >> (rshift-1)) >> 1 = h >> rshift` under both
branches, so the MSB special-case branch never changes the result. -/
theorem claim_C10 (h rshift : Nat) (hh : h < 2 ^ 64) (hr1 : 1 ≤ rshift)
    (hr64 : rshift ≤ 64) :
    shardIndexOf rshift h = (h >>> (rshift - 1)) >>> 1 ∧
    (h >>> (rshift - 1)) >>> 1 = h >>> rshift := by
  have hpow : (2 : Nat) ^ (rshift - 1) * 2 = 2 ^ rshift := by
    rw [← pow_succ]
    congr 1
    omega
  have hsecond : (h >>> (rshift - 1)) >>> 1 = h >>> rshift := by
    simp only [Nat.shiftRight_eq_div_pow, pow_one, Nat.div_div_eq_div_mul, hpow]
  refine ⟨?_, hsecond⟩
  rw [shardIndexOf]
  by_cases hbit : h &&& 0x8000000000000000 ≠ 0
  · rw [if_pos hbit]
    have htb : h.testBit 63 = true := by
      by_contra hb
      rw [Bool.not_eq_true] at hb
      apply hbit
      rw [show (0x8000000000000000 : Nat) = 2 ^ 63 by norm_num, Nat.and_two_pow, hb]
      simp
    have hdivbit : h / 9223372036854775808 % 2 = 1 := by
      rw [Nat.testBit_to_div_mod] at htb
      have h2 := of_decide_eq_true htb
      rwa [show (2 : Nat) ^ 63 = 9223372036854775808 by norm_num] at h2
    have hh' : h < 18446744073709551616 := by
      calc h < 2 ^ 64 := hh
      _ = 18446744073709551616 := by norm_num
    have hmask : h &&& 0x7FFFFFFFFFFFFFFF = h % 9223372036854775808 := by
      rw [show (0x7FFFFFFFFFFFFFFF : Nat) = 2 ^ 63 - 1 by norm_num,
        Nat.and_pow_two_sub_one_eq_mod,
        show (2 : Nat) ^ 63 = 9223372036854775808 by norm_num]
    rw [hmask]
    have hm1 : (h % 9223372036854775808) >>> 1 = h % 9223372036854775808 / 2 := by
      rw [Nat.shiftRight_eq_div_pow, pow_one]
    have hblt : h % 9223372036854775808 / 2 < 2 ^ 62 := by
      rw [show (2 : Nat) ^ 62 = 4611686018427387904 by norm_num]
      omega
    have hor : (h % 9223372036854775808 / 2) ||| 0x4000000000000000 =
        2 ^ 62 * 1 + h % 9223372036854775808 / 2 := by
      rw [show (0x4000000000000000 : Nat) = 2 ^ 62 * 1 by norm_num, Nat.lor_comm]
      exact (Nat.mul_add_lt_is_or hblt 1).symm
    rw [hm1, hor, hsecond]
    have hhalf : 2 ^ 62 * 1 + h % 9223372036854775808 / 2 = h / 2 := by
      rw [show (2 : Nat) ^ 62 = 4611686018427387904 by norm_num]
      omega
    rw [hhalf]
    simp only [Nat.shiftRight_eq_div_pow, Nat.div_div_eq_div_mul]
    rw [show 2 * 2 ^ (rshift - 1) = 2 ^ rshift by rw [mul_comm]; exact hpow]
  · rw [if_neg hbit]

/-- Witness for C10 at `h = 2^63 + 12345` (MSB set) and `rshift = 29`. -/
theorem claim_C10_witness :
    shardIndexOf 29 (2 ^ 63 + 12345) = ((2 ^ 63 + 12345) >>> 28) >>> 1 ∧
    ((2 ^ 63 + 12345) >>> 28) >>> 1 = (2 ^ 63 + 12345) >>> 29 :=
  claim_C10 (2 ^ 63 + 12345) 29 (by norm_num) (by norm_num) (by norm_num)

/-! ### The shard boundary off-by-one (claims C2 and C6) -/

/-- Claim C2 evaluated at a failing input: on the two-host ring built with
sharding enabled (hashes `2^20`, `2^29`, so `rshift = 29` and the shard
value changes at entry 1), the sharded lookup of `h = 2^29` uses the
window `[shard_starts[1], shard_starts[2]] = [2, 2]`, wraps to entry 0 and
returns host 0, while the unsharded lookup returns host 1. -/
theorem claim_C2 :
    chooseHost ringNear true (2 ^ 29) 0 = some 0 ∧
    chooseHost ringNear false (2 ^ 29) 0 = some 1 := by
  constructor
  · have hb : bsearchGo (entryHashes ringNear.entries) (2 ^ 29) ((2 : Nat) : Int)
        ((2 : Nat) : Int) = 0 := by
      rw [ringNear_eq, bsearchGo.eq_def]
      dsimp only
      rw [if_pos (by decide)]
    have hl : lookupIndex ringNear true (2 ^ 29) =
        some (bsearchGo (entryHashes ringNear.entries) (2 ^ 29) ((2 : Nat) : Int)
          ((2 : Nat) : Int)) := by
      rw [lookupIndex, if_neg (by rw [ringNear_eq]; decide), if_pos rfl,
        show ringNear.shard[shardIndexOf ringNear.rshift (2 ^ 29)]? = some 2 from by
          rw [ringNear_eq]; decide,
        show ringNear.shard[shardIndexOf ringNear.rshift (2 ^ 29) + 1]? = some 2 from by
          rw [ringNear_eq]; decide]
    rw [chooseHost, hl, hb]
    rw [ringNear_eq]
    decide
  · have hsortN : List.Sorted (· ≤ ·) (entryHashes ringNear.entries) := by
      rw [ringNear_eq]
      decide
    rw [chooseHost_unsharded_eq _ _ (by rw [ringNear_eq]; decide),
      bsearch_full_eq_spec _ _ hsortN, ringNear_eq]
    decide

/-- Claim C6 evaluated at a failing input: in the two-host ring the shard
value changes at entry index 1 (`k = 1`), but the recorded boundary is 2,
so `shard_starts = [0, 2, 2]` rather than the spec's `[0, 1, 2]`, and
entry 1 does not lie in `[shard_starts[1], shard_starts[2]) = [2, 2)`. -/
theorem claim_C6 :
    ringNear.shard = [0, 2, 2] ∧
    shiftVal ringNear.rshift (ringNear.entries.getD 1 defaultEntry).hash ≠
      shiftVal ringNear.rshift (ringNear.entries.getD 0 defaultEntry).hash ∧
    ¬ (ringNear.shard.getD 1 0 ≤ 1 ∧ 1 < ringNear.shard.getD 2 0) := by
  rw [ringNear_eq]
  exact ⟨rfl, by decide, by decide⟩

/-! ### Shard table length (claim C5) -/

/-- The MSB loop bounds its argument: `n < 2 ^ msbLoop n`. -/
theorem msbLoop_lt (n : Nat) : n < 2 ^ msbLoop n := by
  rw [msbLoop.eq_def]
  by_cases hn : n = 0
  · rw [if_pos hn]
    omega
  · rw [if_neg hn]
    have h1 := msbLoop_lt (n / 2)
    rw [pow_succ]
    omega
termination_by n
decreasing_by exact Nat.div_lt_self (Nat.pos_of_ne_zero hn) (by omega)

/-- Right-shifting is monotone, so shard values are monotone in the hash. -/
theorem shiftVal_mono (rshift : Nat) {a b : Nat} (hab : a ≤ b) :
    shiftVal rshift a ≤ shiftVal rshift b := by
  simp only [shiftVal, Nat.shiftRight_eq_div_pow]
  exact Nat.div_le_div_right (Nat.div_le_div_right hab)

/-- The first entry's shard value is 0 (its hash is below `2 ^ rshift`). -/
theorem shiftVal_head_zero (entries : List RingEntry) (rshift0 : Nat) (hr1 : 1 ≤ rshift0)
    (hbound : (entries.headD defaultEntry).hash < 2 ^ 64) :
    shiftVal (rshiftOf entries rshift0) (entries.headD defaultEntry).hash = 0 := by
  have hmsb : (entries.headD defaultEntry).hash <
      2 ^ (msbLoop ((entries.headD defaultEntry).hash / 2) + 1) := by
    have h1 := msbLoop_lt ((entries.headD defaultEntry).hash / 2)
    rw [pow_succ]
    omega
  rw [shiftVal, rshiftOf]
  simp only [Nat.shiftRight_eq_div_pow, pow_one]
  by_cases hcap : rshift0 + msbLoop ((entries.headD defaultEntry).hash / 2) > 64
  · rw [if_pos hcap]
    have h2 : (entries.headD defaultEntry).hash / 2 ^ (64 - 1) / 2 = 0 := by
      apply Nat.div_eq_of_lt
      apply Nat.div_lt_of_lt_mul
      calc (entries.headD defaultEntry).hash < 2 ^ 64 := hbound
      _ = 2 ^ (64 - 1) * 2 := by norm_num
    exact h2
  · rw [if_neg hcap]
    apply Nat.div_eq_of_lt
    apply Nat.div_lt_of_lt_mul
    calc (entries.headD defaultEntry).hash
        < 2 ^ (msbLoop ((entries.headD defaultEntry).hash / 2) + 1) := hmsb
    _ ≤ 2 ^ (rshift0 + msbLoop ((entries.headD defaultEntry).hash / 2) - 1) * 2 := by
        rw [show 2 ^ (rshift0 + msbLoop ((entries.headD defaultEntry).hash / 2) - 1) * 2 =
            2 ^ (rshift0 + msbLoop ((entries.headD defaultEntry).hash / 2) - 1 + 1) by
          rw [pow_succ]]
        apply Nat.pow_le_pow_right (by omega)
        omega

/-- For a run of entries whose shard values are sorted and start at or
above `prev`, the boundary loop pushes one boundary per distinct shard
value other than `prev`'s own run. -/
theorem mkShardLoop_length_sorted (rshift : Nat) :
    ∀ (es : List RingEntry) (prev ri : Nat),
      List.Sorted (· ≤ ·) (prev :: es.map fun e => shiftVal rshift e.hash) →
      (mkShardLoop rshift es ri prev).length + 1 =
        ((prev :: es.map fun e => shiftVal rshift e.hash).dedup).length := by
  intro es
  induction es with
  | nil =>
      intro prev ri _
      simp [mkShardLoop]
  | cons e rest ih =>
      intro prev ri hsort
      rw [List.map_cons] at hsort
      have hps : prev ≤ shiftVal rshift e.hash :=
        (List.sorted_cons.mp hsort).1 _ (by simp)
      have hsort' : List.Sorted (· ≤ ·)
          (shiftVal rshift e.hash :: rest.map fun x => shiftVal rshift x.hash) :=
        (List.sorted_cons.mp hsort).2
      rcases eq_or_ne (shiftVal rshift e.hash) prev with heq | hne
      · simp only [mkShardLoop, List.map_cons]
        rw [if_neg (by simp [heq])]
        have hsortp : List.Sorted (· ≤ ·)
            (prev :: rest.map fun x => shiftVal rshift x.hash) := by
          rw [← heq]
          exact hsort'
        rw [heq, List.dedup_cons_of_mem (List.mem_cons_self _ _)]
        exact ih prev (ri + 1) hsortp
      · simp only [mkShardLoop, List.map_cons]
        rw [if_pos hne]
        have hnotmem : prev ∉
            (shiftVal rshift e.hash :: rest.map fun x => shiftVal rshift x.hash) := by
          intro hmem
          rcases List.mem_cons.mp hmem with h1 | h1
          · exact hne h1.symm
          · have h2 := (List.sorted_cons.mp hsort').1 _ h1
            omega
        rw [List.dedup_cons_of_not_mem hnotmem]
        have ihh := ih (shiftVal rshift e.hash) (ri + 1) hsort'
        simp only [List.length_cons] at *
        omega

/-- Every entry of a built ring carries a hash value of the opaque hash
function. -/
theorem buildRing_entries_hash_lt (H : Nat → Nat → Nat) (hosts : List (Nat × ℚ))
    (minW : ℚ) (minRing maxRing : Nat) (sharded : Bool) (rshift0 : Nat)
    (hbound : ∀ a b, H a b < 2 ^ 64) :
    ∀ e ∈ (buildRing H hosts minW minRing maxRing sharded rshift0).entries,
      e.hash < 2 ^ 64 := by
  intro e he
  by_cases hne : hosts = []
  · subst hne
    rw [buildRing] at he
    simp at he
  · rw [buildRing_eq_of_ne _ _ _ _ _ _ _ hne] at he
    have hmem : e ∈ (buildLoop H (scaleOf minW minRing maxRing) hosts 0 0).1 :=
      (sortRing_perm _).mem_iff.mp he
    obtain ⟨a, b, rfl⟩ := buildLoop_mem H _ hosts 0 0 e hmem
    exact hbound a b

/-- Claim C5 (amended): for every sharded build from a non-empty host set,
`shard_starts.len() = D + 1` where `D` is the number of distinct shard
values among the entries; hence the reads `shard_starts[i]` and
`shard_starts[i+1]` made by `choose` are in bounds iff the raw shifted
value `i` of the query hash is below `D` — which the builder does not
guarantee for every 64-bit hash. -/
theorem claim_C5_amended (H : Nat → Nat → Nat) (hosts : List (Nat × ℚ)) (minW : ℚ)
    (minRing maxRing : Nat) (rshift0 : Nat) (r : BuildResult)
    (hr : r = buildRing H hosts minW minRing maxRing true rshift0)
    (hne : r.entries ≠ []) (hr1 : 1 ≤ rshift0) (hbound : ∀ a b, H a b < 2 ^ 64) :
    r.shard.length =
      ((r.entries.map fun e => shiftVal r.rshift e.hash).dedup).length + 1 ∧
    ∀ h : Nat,
      (shardIndexOf r.rshift h + 1 < r.shard.length ↔
        shardIndexOf r.rshift h <
          ((r.entries.map fun e => shiftVal r.rshift e.hash).dedup).length) := by
  subst hr
  have hhosts : hosts ≠ [] := by
    intro hempty
    apply hne
    rw [hempty, buildRing]
    rfl
  have hsorted := buildRing_entries_sorted H hosts minW minRing maxRing true rshift0
  have hhash := buildRing_entries_hash_lt H hosts minW minRing maxRing true rshift0 hbound
  rw [buildRing_eq_of_ne_sharded H hosts minW minRing maxRing rshift0 hhosts] at hne hsorted hhash ⊢
  dsimp only at hne hsorted hhash ⊢
  set E := sortRing (buildLoop H (scaleOf minW minRing maxRing) hosts 0 0).1 with hE
  set R := rshiftOf E rshift0 with hR
  obtain ⟨e0, tl, hes⟩ := List.exists_cons_of_ne_nil hne
  have hheadm : E.headD defaultEntry = e0 := by
    rw [hes]
    rfl
  have hhead0 : shiftVal R e0.hash = 0 := by
    have h0 := shiftVal_head_zero E rshift0 hr1
      (by
        rw [hheadm]
        exact hhash e0 (by rw [hes]; exact List.mem_cons_self _ _))
    rw [← hR, hheadm] at h0
    exact h0
  have hmapsorted : List.Sorted (· ≤ ·) (E.map fun e => shiftVal R e.hash) := by
    have hs2 : List.Pairwise (· ≤ ·) (List.map RingEntry.hash E) := hsorted
    have hp : List.Pairwise (fun a b : RingEntry => a.hash ≤ b.hash) E :=
      List.pairwise_map.mp hs2
    exact List.pairwise_map.mpr (hp.imp (fun hab => shiftVal_mono _ hab))
  have hzsorted : List.Sorted (· ≤ ·) ((0 : Nat) :: E.map fun e => shiftVal R e.hash) :=
    List.sorted_cons.mpr ⟨fun x _ => Nat.zero_le x, hmapsorted⟩
  have hlooplen := mkShardLoop_length_sorted R E 0 1 hzsorted
  have hzero_mem : (0 : Nat) ∈ E.map fun e => shiftVal R e.hash := by
    rw [hes, List.map_cons, hhead0]
    exact List.mem_cons_self _ _
  rw [List.dedup_cons_of_mem hzero_mem] at hlooplen
  have hmain : (mkShard R E (ringSizeOf (scaleOf minW minRing maxRing))).length =
      ((E.map fun e => shiftVal R e.hash).dedup).length + 1 := by
    rw [mkShard, if_neg (by simpa [List.isEmpty_iff] using hne)]
    rw [List.length_append, List.length_append]
    simp only [List.length_cons, List.length_nil] at hlooplen ⊢
    omega
  exact ⟨hmain, fun h => by rw [hmain]; omega⟩

/-- Counterexample to C5 as stated: on the sharded two-host ring with
hashes `2^20` and `2^49` (shard table `[0, 2, 2]`), the query `h = 2^62`
yields shard index `2^33`, and `shard_starts[i+1]` is read out of
bounds. -/
theorem claim_C5_counterexample :
    ¬ (shardIndexOf ringFar.rshift (2 ^ 62) + 1 < ringFar.shard.length) := by
  rw [ringFar_eq]
  decide

/-- Witness for the amended C5 at the concrete sharded two-host ring. -/
theorem claim_C5_witness :
    ringFar.shard.length =
      ((ringFar.entries.map fun e => shiftVal ringFar.rshift e.hash).dedup).length + 1 :=
  (claim_C5_amended hashesFar hostsTwo (1 / 2) 2 2 9 ringFar rfl
    (by rw [ringFar_eq]; decide) (by norm_num)
    (by
      intro a b
      rw [hashesFar]
      split <;> norm_num)).1

/-! ### Per-host entry counting (claim C3) -/

theorem placeHost_host_eq (H : Nat → Nat → Nat) (host : Nat) (i current : Nat)
    (target : ℚ) : ∀ e ∈ placeHost H host i current target, e.host = host := by
  rw [placeHost_eq]
  intro e he
  simp only [List.mem_map, List.mem_range] at he
  obtain ⟨j, _, rfl⟩ := he
  rfl

theorem buildLoop_host_mem (H : Nat → Nat → Nat) (scale : ℚ) :
    ∀ (hosts : List (Nat × ℚ)) (current : Nat) (target : ℚ),
      ∀ e ∈ (buildLoop H scale hosts current target).1, e.host ∈ hosts.map Prod.fst := by
  intro hosts
  induction hosts with
  | nil => intro current target e he; simp [buildLoop] at he
  | cons p rest ih =>
      intro current target e he
      obtain ⟨host, w⟩ := p
      simp only [buildLoop, List.mem_append] at he
      simp only [List.map_cons, List.mem_cons]
      rcases he with he | he
      · exact Or.inl (placeHost_host_eq H host 0 current _ e he)
      · exact Or.inr (ih _ _ e he)

/-- With pairwise distinct host identities, the number of ring entries a
host receives is exactly its per-host count. -/
theorem buildLoop_countP (H : Nat → Nat → Nat) (scale : ℚ) :
    ∀ (hosts : List (Nat × ℚ)) (current : Nat) (target : ℚ) (k : Nat),
      k < hosts.length → (hosts.map Prod.fst).Nodup →
      (buildLoop H scale hosts current target).1.countP
          (fun e => decide (e.host = (hosts.getD k (0, 0)).1)) =
        (buildLoop H scale hosts current target).2.1.getD k 0 := by
  intro hosts
  induction hosts with
  | nil => intro current target k hk; simp at hk
  | cons p rest ih =>
      intro current target k hk hnodup
      obtain ⟨a, w⟩ := p
      rw [List.map_cons, List.nodup_cons] at hnodup
      obtain ⟨hnotin, hnodup'⟩ := hnodup
      match k with
      | 0 =>
          simp only [buildLoop, List.getD_cons_zero]
          rw [List.countP_append]
          have h1 : (placeHost H a 0 current (target + scale * w)).countP
              (fun e => decide (e.host = (a, w).1)) =
              (placeHost H a 0 current (target + scale * w)).length := by
            rw [List.countP_eq_length]
            intro e he
            simp [placeHost_host_eq H a 0 current _ e he]
          have h2 : (buildLoop H scale rest
              (current + (placeHost H a 0 current (target + scale * w)).length)
              (target + scale * w)).1.countP (fun e => decide (e.host = (a, w).1)) = 0 := by
            rw [List.countP_eq_zero]
            intro e he
            have := buildLoop_host_mem H scale rest _ _ e he
            simp only [decide_eq_true_eq]
            intro heq
            exact hnotin (heq ▸ this)
          rw [h1, h2]
          omega
      | k + 1 =>
          simp only [buildLoop, List.getD_cons_succ]
          rw [List.countP_append]
          have hmemk : (rest.getD k (0, 0)).1 ∈ rest.map Prod.fst := by
            have hk' : k < rest.length := by simpa using Nat.lt_of_succ_lt_succ hk
            rw [List.getD_eq_getElem _ _ hk']
            exact List.mem_map_of_mem _ (List.getElem_mem _)
          have h1 : (placeHost H a 0 current (target + scale * w)).countP
              (fun e => decide (e.host = (rest.getD k (0, 0)).1)) = 0 := by
            rw [List.countP_eq_zero]
            intro e he
            rw [placeHost_host_eq H a 0 current _ e he]
            simp only [decide_eq_true_eq]
            intro heq
            exact hnotin (heq ▸ hmemk)
          rw [h1]
          have := ih (current + (placeHost H a 0 current (target + scale * w)).length)
            (target + scale * w) k (by simpa using Nat.lt_of_succ_lt_succ hk) hnodup'
          omega

/-! ### Ring size (claims C4 and C8) -/

/-- With exact unit total weight, the counts sum to `ring_size`. -/
theorem buildLoop_sum_counts_eq (H : Nat → Nat → Nat) (hosts : List (Nat × ℚ))
    (minW : ℚ) (minRing maxRing : Nat) (hpos : ∀ p ∈ hosts, 0 ≤ p.2)
    (hsum : (hosts.map Prod.snd).sum = 1) (hminpos : 0 < minW) :
    (buildLoop H (scaleOf minW minRing maxRing) hosts 0 0).2.1.sum =
      ringSizeOf (scaleOf minW minRing maxRing) := by
  have hfs := buildLoop_final_eq_sum H (scaleOf minW minRing maxRing) hosts 0 0
  have hfc := buildLoop_final_ceil H (scaleOf minW minRing maxRing)
    (scaleOf_nonneg minRing maxRing hminpos) hosts 0 0 le_rfl (by simp) hpos
  rw [hsum, mul_one, zero_add] at hfc
  rw [ringSizeOf]
  omega

theorem buildRing_length_eq (H : Nat → Nat → Nat) (hosts : List (Nat × ℚ)) (minW : ℚ)
    (minRing maxRing : Nat) (sharded : Bool) (rshift0 : Nat) (hne : hosts ≠ [])
    (hpos : ∀ p ∈ hosts, 0 ≤ p.2) (hsum : (hosts.map Prod.snd).sum = 1)
    (hminpos : 0 < minW) :
    (buildRing H hosts minW minRing maxRing sharded rshift0).entries.length =
      ringSizeOf (scaleOf minW minRing maxRing) := by
  rw [buildRing_eq_of_ne _ _ _ _ _ _ _ hne]
  dsimp only
  rw [sortRing_length, buildLoop_entries_length,
    buildLoop_sum_counts_eq H hosts minW minRing maxRing hpos hsum hminpos]

/-- Claim C4: for every build from a non-empty host set with positive
weights summing to 1, `min_normalized_weight` the minimum weight and
`min_ring_size ≤ max_ring_size`, the built ring satisfies
`min_ring_size ≤ entries.len() ≤ max_ring_size`. -/
theorem claim_C4 (H : Nat → Nat → Nat) (hosts : List (Nat × ℚ)) (minW : ℚ)
    (minRing maxRing : Nat) (sharded : Bool) (rshift0 : Nat) (hne : hosts ≠ [])
    (hpos : ∀ p ∈ hosts, 0 < p.2) (hsum : (hosts.map Prod.snd).sum = 1)
    (hmem : minW ∈ hosts.map Prod.snd) (hmin : ∀ w ∈ hosts.map Prod.snd, minW ≤ w)
    (hmm : minRing ≤ maxRing) :
    minRing ≤ (buildRing H hosts minW minRing maxRing sharded rshift0).entries.length ∧
    (buildRing H hosts minW minRing maxRing sharded rshift0).entries.length ≤ maxRing := by
  have hminpos : 0 < minW := by
    obtain ⟨q, hq, hqe⟩ := List.mem_map.mp hmem
    rw [← hqe]
    exact hpos q hq
  rw [buildRing_length_eq H hosts minW minRing maxRing sharded rshift0 hne
    (fun p hp => (hpos p hp).le) hsum hminpos]
  have h1 : (minRing : ℚ) ≤ scaleOf minW minRing maxRing := le_scaleOf hminpos hmm
  have h2 : scaleOf minW minRing maxRing ≤ (maxRing : ℚ) := scaleOf_le_max _ _ _
  have h3 : (minRing : ℤ) ≤ ⌈scaleOf minW minRing maxRing⌉ := by
    calc (minRing : ℤ) = ⌈((minRing : Nat) : ℚ)⌉ := by rw [Int.ceil_natCast]
    _ ≤ ⌈scaleOf minW minRing maxRing⌉ := Int.ceil_le_ceil h1
  have h4 : ⌈scaleOf minW minRing maxRing⌉ ≤ (maxRing : ℤ) := by
    rw [Int.ceil_le]
    exact_mod_cast h2
  rw [ringSizeOf]
  omega

/-- Witness for C4 at the concrete two-host build. -/
theorem claim_C4_witness :
    2 ≤ (buildRing hashesNear hostsTwo (1 / 2) 2 2 true 9).entries.length ∧
    (buildRing hashesNear hostsTwo (1 / 2) 2 2 true 9).entries.length ≤ 2 :=
  claim_C4 hashesNear hostsTwo (1 / 2) 2 2 true 9 (by rw [hostsTwo]; simp)
    (by
      intro p hp
      rw [hostsTwo] at hp
      rcases List.mem_cons.mp hp with rfl | hp
      · norm_num
      · rcases List.mem_cons.mp hp with rfl | hp
        · norm_num
        · simp at hp)
    (by rw [hostsTwo]; norm_num)
    (by rw [hostsTwo]; simp)
    (by
      intro w hw
      rw [hostsTwo] at hw
      simp only [List.map_cons, List.map_nil] at hw
      rcases List.mem_cons.mp hw with rfl | hw
      · norm_num
      · rcases List.mem_cons.mp hw with rfl | hw
        · norm_num
        · simp at hw)
    le_rfl

/-- Claim C3: each input host receives a number of ring entries equal to
`⌊scale * w⌋` or `⌈scale * w⌉`; the per-host count of the builder loop is
that number, and (for distinct host identities) it is exactly the number
of entries of that host in the built ring. -/
theorem claim_C3 (H : Nat → Nat → Nat) (hosts : List (Nat × ℚ)) (minW : ℚ)
    (minRing maxRing : Nat) (sharded : Bool) (rshift0 : Nat)
    (hpos : ∀ p ∈ hosts, 0 < p.2) (hsum : (hosts.map Prod.snd).sum = 1)
    (hmem : minW ∈ hosts.map Prod.snd) (hmin : ∀ w ∈ hosts.map Prod.snd, minW ≤ w)
    (hnodup : (hosts.map Prod.fst).Nodup) (k : Nat) (hk : k < hosts.length) :
    (buildRing H hosts minW minRing maxRing sharded rshift0).entries.countP
        (fun e => decide (e.host = (hosts.getD k (0, 0)).1)) =
      (buildLoop H (scaleOf minW minRing maxRing) hosts 0 0).2.1.getD k 0 ∧
    (((buildLoop H (scaleOf minW minRing maxRing) hosts 0 0).2.1.getD k 0 : ℤ) =
        ⌊scaleOf minW minRing maxRing * (hosts.getD k (0, 0)).2⌋ ∨
     ((buildLoop H (scaleOf minW minRing maxRing) hosts 0 0).2.1.getD k 0 : ℤ) =
        ⌈scaleOf minW minRing maxRing * (hosts.getD k (0, 0)).2⌉) := by
  have hne : hosts ≠ [] := by
    intro hempty
    rw [hempty] at hk
    simp at hk
  have hminpos : 0 < minW := by
    obtain ⟨q, hq, hqe⟩ := List.mem_map.mp hmem
    rw [← hqe]
    exact hpos q hq
  constructor
  · rw [buildRing_eq_of_ne _ _ _ _ _ _ _ hne]
    dsimp only
    rw [(sortRing_perm _).countP_eq]
    exact buildLoop_countP H (scaleOf minW minRing maxRing) hosts 0 0 k hk hnodup
  · exact buildLoop_count_floor_ceil H (scaleOf minW minRing maxRing)
      (scaleOf_nonneg minRing maxRing hminpos) hosts 0 0 le_rfl (by simp)
      (fun p hp => (hpos p hp).le) k hk

/-- Witness for C3 at the concrete two-host build, host 0. -/
theorem claim_C3_witness :
    (buildRing hashesNear hostsTwo (1 / 2) 2 2 true 9).entries.countP
        (fun e => decide (e.host = (hostsTwo.getD 0 (0, 0)).1)) =
      (buildLoop hashesNear (scaleOf (1 / 2) 2 2) hostsTwo 0 0).2.1.getD 0 0 ∧
    (((buildLoop hashesNear (scaleOf (1 / 2) 2 2) hostsTwo 0 0).2.1.getD 0 0 : ℤ) =
        ⌊scaleOf (1 / 2) 2 2 * (hostsTwo.getD 0 (0, 0)).2⌋ ∨
     ((buildLoop hashesNear (scaleOf (1 / 2) 2 2) hostsTwo 0 0).2.1.getD 0 0 : ℤ) =
        ⌈scaleOf (1 / 2) 2 2 * (hostsTwo.getD 0 (0, 0)).2⌉) :=
  claim_C3 hashesNear hostsTwo (1 / 2) 2 2 true 9
    (by
      intro p hp
      rw [hostsTwo] at hp
      rcases List.mem_cons.mp hp with rfl | hp
      · norm_num
      · rcases List.mem_cons.mp hp with rfl | hp
        · norm_num
        · simp at hp)
    (by rw [hostsTwo]; norm_num)
    (by rw [hostsTwo]; simp)
    (by
      intro w hw
      rw [hostsTwo] at hw
      simp only [List.map_cons, List.map_nil] at hw
      rcases List.mem_cons.mp hw with rfl | hw
      · norm_num
      · rcases List.mem_cons.mp hw with rfl | hw
        · norm_num
        · simp at hw)
    (by rw [hostsTwo]; simp)
    0 (by rw [hostsTwo]; norm_num)

/-- Claim C8: a build from a non-empty host set emits exactly the three
gauges: `size` equal to the number of ring entries, and
`min_hashes_per_host` / `max_hashes_per_host` equal to the minimum and
maximum per-host virtual-node counts. -/
theorem claim_C8 (H : Nat → Nat → Nat) (hosts : List (Nat × ℚ)) (minW : ℚ)
    (minRing maxRing : Nat) (sharded : Bool) (rshift0 : Nat) (hne : hosts ≠ [])
    (hpos : ∀ p ∈ hosts, 0 < p.2) (hsum : (hosts.map Prod.snd).sum = 1)
    (hmem : minW ∈ hosts.map Prod.snd) (hmin : ∀ w ∈ hosts.map Prod.snd, minW ≤ w) :
    ∃ sizeG minG maxG,
      (buildRing H hosts minW minRing maxRing sharded rshift0).stats =
        some (sizeG, minG, maxG) ∧
      sizeG = (buildRing H hosts minW minRing maxRing sharded rshift0).entries.length ∧
      (minG ∈ (buildLoop H (scaleOf minW minRing maxRing) hosts 0 0).2.1 ∧
        ∀ c ∈ (buildLoop H (scaleOf minW minRing maxRing) hosts 0 0).2.1, minG ≤ c) ∧
      (maxG ∈ (buildLoop H (scaleOf minW minRing maxRing) hosts 0 0).2.1 ∧
        ∀ c ∈ (buildLoop H (scaleOf minW minRing maxRing) hosts 0 0).2.1, c ≤ maxG) := by
  have hminpos : 0 < minW := by
    obtain ⟨q, hq, hqe⟩ := List.mem_map.mp hmem
    rw [← hqe]
    exact hpos q hq
  have hlen := buildRing_length_eq H hosts minW minRing maxRing sharded rshift0 hne
    (fun p hp => (hpos p hp).le) hsum hminpos
  have hcsum := buildLoop_sum_counts_eq H hosts minW minRing maxRing
    (fun p hp => (hpos p hp).le) hsum hminpos
  have hclen : (buildLoop H (scaleOf minW minRing maxRing) hosts 0 0).2.1.length =
      hosts.length := buildLoop_counts_length H _ hosts 0 0
  have hcne : (buildLoop H (scaleOf minW minRing maxRing) hosts 0 0).2.1 ≠ [] := by
    intro hturn
    apply hne
    rw [hturn] at hclen
    exact List.eq_nil_of_length_eq_zero hclen.symm
  obtain ⟨c0, cr, hcs⟩ := List.exists_cons_of_ne_nil hcne
  have hc0le : c0 ≤ ringSizeOf (scaleOf minW minRing maxRing) := by
    rw [← hcsum, hcs]
    simp only [List.sum_cons]
    omega
  refine ⟨ringSizeOf (scaleOf minW minRing maxRing),
    (buildLoop H (scaleOf minW minRing maxRing) hosts 0 0).2.1.foldl (fun m c => min c m)
      (ringSizeOf (scaleOf minW minRing maxRing)),
    (buildLoop H (scaleOf minW minRing maxRing) hosts 0 0).2.1.foldl (fun m c => max c m) 0,
    by rw [buildRing_eq_of_ne _ _ _ _ _ _ _ hne], hlen.symm, ?_, ?_⟩
  · obtain ⟨h1, h2, h3⟩ := foldl_min_spec
      (buildLoop H (scaleOf minW minRing maxRing) hosts 0 0).2.1
      (ringSizeOf (scaleOf minW minRing maxRing))
    refine ⟨?_, h2⟩
    rcases h3 with h3 | h3
    · have hc0 := h2 c0 (by rw [hcs]; exact List.mem_cons_self _ _)
      have : c0 = (buildLoop H (scaleOf minW minRing maxRing) hosts 0 0).2.1.foldl
          (fun m c => min c m) (ringSizeOf (scaleOf minW minRing maxRing)) := by omega
      rw [← this, hcs]
      exact List.mem_cons_self _ _
    · exact h3
  · obtain ⟨h1, h2, h3⟩ := foldl_max_spec
      (buildLoop H (scaleOf minW minRing maxRing) hosts 0 0).2.1 0
    refine ⟨?_, h2⟩
    rcases h3 with h3 | h3
    · have hc0 := h2 c0 (by rw [hcs]; exact List.mem_cons_self _ _)
      have : c0 = (buildLoop H (scaleOf minW minRing maxRing) hosts 0 0).2.1.foldl
          (fun m c => max c m) 0 := by omega
      rw [← this, hcs]
      exact List.mem_cons_self _ _
    · exact h3

/-- Witness for C8 at the concrete two-host build. -/
theorem claim_C8_witness :
    ∃ sizeG minG maxG,
      (buildRing hashesNear hostsTwo (1 / 2) 2 2 true 9).stats = some (sizeG, minG, maxG) ∧
      sizeG = (buildRing hashesNear hostsTwo (1 / 2) 2 2 true 9).entries.length ∧
      (minG ∈ (buildLoop hashesNear (scaleOf (1 / 2) 2 2) hostsTwo 0 0).2.1 ∧
        ∀ c ∈ (buildLoop hashesNear (scaleOf (1 / 2) 2 2) hostsTwo 0 0).2.1, minG ≤ c) ∧
      (maxG ∈ (buildLoop hashesNear (scaleOf (1 / 2) 2 2) hostsTwo 0 0).2.1 ∧
        ∀ c ∈ (buildLoop hashesNear (scaleOf (1 / 2) 2 2) hostsTwo 0 0).2.1, c ≤ maxG) :=
  claim_C8 hashesNear hostsTwo (1 / 2) 2 2 true 9 (by rw [hostsTwo]; simp)
    (by
      intro p hp
      rw [hostsTwo] at hp
      rcases List.mem_cons.mp hp with rfl | hp
      · norm_num
      · rcases List.mem_cons.mp hp with rfl | hp
        · norm_num
        · simp at hp)
    (by rw [hostsTwo]; norm_num)
    (by rw [hostsTwo]; simp)
    (by
      intro w hw
      rw [hostsTwo] at hw
      simp only [List.map_cons, List.map_nil] at hw
      rcases List.mem_cons.mp hw with rfl | hw
      · norm_num
      · rcases List.mem_cons.mp hw with rfl | hw
        · norm_num
        · simp at hw)

end RingHash
